import Mathlib

/-!
Verification of the core blockchain implementation (`blockchain.py`).

The development shallowly embeds the `Blockchain` class: blocks are records,
the chain state is a record of the instance attributes, machine-level hashing
is an executable SHA-256 over byte lists (`Nat` values `< 256`), and Python's
`json.dumps(block, sort_keys=True)` is modelled by an explicit canonical
serializer that sorts dictionary keys.  Fallible operations (Python statements
that can raise `IndexError` / `KeyError`) return `Except String`.
-/

/-! ### SHA-256 (executable model of `hashlib.sha256(...).hexdigest()`) -/

/-- Truncation to a 32-bit word. -/
def u32 (x : Nat) : Nat := x % 4294967296

/-- Right rotation of a 32-bit word. -/
def rotr (n x : Nat) : Nat := (x >>> n) ||| u32 (x <<< (32 - n))

/-- The SHA-256 round constants. -/
def shaK : List Nat :=
  [1116352408, 1899447441, 3049323471, 3921009573, 961987163,
   1508970993, 2453635748, 2870763221, 3624381080, 310598401,
   607225278, 1426881987, 1925078388, 2162078206, 2614888103,
   3248222580, 3835390401, 4022224774, 264347078, 604807628,
   770255983, 1249150122, 1555081692, 1996064986, 2554220882,
   2821834349, 2952996808, 3210313671, 3336571891, 3584528711,
   113926993, 338241895, 666307205, 773529912, 1294757372,
   1396182291, 1695183700, 1986661051, 2177026350, 2456956037,
   2730485921, 2820302411, 3259730800, 3345764771, 3516065817,
   3600352804, 4094571909, 275423344, 430227734, 506948616,
   659060556, 883997877, 958139571, 1322822218, 1537002063,
   1747873779, 1955562222, 2024104815, 2227730452, 2361852424,
   2428436474, 2756734187, 3204031479, 3329325298]

/-- The SHA-256 initial hash state. -/
def shaH0 : List Nat :=
  [1779033703, 3144134277, 1013904242, 2773480762,
   1359893119, 2600822924, 528734635, 1541459225]

/-- Big-endian 64-bit length field appended by SHA-256 padding. -/
def lenBytes64 (n : Nat) : List Nat :=
  [(n >>> 56) % 256, (n >>> 48) % 256, (n >>> 40) % 256, (n >>> 32) % 256,
   (n >>> 24) % 256, (n >>> 16) % 256, (n >>> 8) % 256, n % 256]

/-- SHA-256 message padding: a `0x80` byte, zero bytes to 56 mod 64, then the
bit length. -/
def padMessage (msg : List Nat) : List Nat :=
  let L := msg.length
  let k := (64 - (L + 9) % 64) % 64
  msg ++ [0x80] ++ List.replicate k 0 ++ lenBytes64 (8 * L)

/-- Big-endian grouping of bytes into 32-bit words. -/
def bytesToWords : List Nat → List Nat
  | a :: b :: c :: d :: rest => ((a <<< 24) ||| (b <<< 16) ||| (c <<< 8) ||| d) :: bytesToWords rest
  | _ => []

/-- Splitting a word list into chunks of 16 words (structural recursion so that
the kernel can evaluate it). -/
def split16 : List Nat → List (List Nat)
  | a1 :: a2 :: a3 :: a4 :: a5 :: a6 :: a7 :: a8 ::
    a9 :: a10 :: a11 :: a12 :: a13 :: a14 :: a15 :: a16 :: rest =>
    [a1, a2, a3, a4, a5, a6, a7, a8, a9, a10, a11, a12, a13, a14, a15, a16] :: split16 rest
  | _ => []

/-- SHA-256 sigma-0 for the message schedule. -/
def smallSigma0 (x : Nat) : Nat := rotr 7 x ^^^ rotr 18 x ^^^ (x >>> 3)

/-- SHA-256 sigma-1 for the message schedule. -/
def smallSigma1 (x : Nat) : Nat := rotr 17 x ^^^ rotr 19 x ^^^ (x >>> 10)

/-- Extension of a 16-word chunk by `i` further schedule words. -/
def extendWords (w : List Nat) (i : Nat) : List Nat :=
  match i with
  | 0 => w
  | i + 1 =>
    let n := w.length
    let x := u32 (smallSigma1 (w.getD (n - 2) 0) + w.getD (n - 7) 0 +
                  smallSigma0 (w.getD (n - 15) 0) + w.getD (n - 16) 0)
    extendWords (w ++ [x]) i

/-- The SHA-256 compression rounds: consumes one round constant and one
schedule word per round, updating the 8-word working state. -/
def shaRound : List Nat → List Nat → List Nat → List Nat
  | k :: ks, x :: ws, [a, b, c, d, e, f, g, h] =>
    let s1 := rotr 6 e ^^^ rotr 11 e ^^^ rotr 25 e
    let ch := (e &&& f) ^^^ ((4294967295 ^^^ e) &&& g)
    let t1 := u32 (h + s1 + ch + k + x)
    let s0 := rotr 2 a ^^^ rotr 13 a ^^^ rotr 22 a
    let maj := (a &&& b) ^^^ (a &&& c) ^^^ (b &&& c)
    let t2 := u32 (s0 + maj)
    shaRound ks ws [u32 (t1 + t2), a, b, c, u32 (d + t1), e, f, g]
  | _, _, s => s

/-- Processing of one 512-bit chunk. -/
def processChunk (state : List Nat) (chunk : List Nat) : List Nat :=
  let w := extendWords chunk 48
  let s := shaRound shaK w state
  List.zipWith (fun x y => u32 (x + y)) state s

/-- SHA-256 digest of a byte list, as eight 32-bit words. -/
def sha256Words (msg : List Nat) : List Nat :=
  (split16 (bytesToWords (padMessage msg))).foldl processChunk shaH0

/-- Lower-case hexadecimal digit. -/
def hexDigit (n : Nat) : Char := "0123456789abcdef".toList.getD n '0'

/-- Eight hex characters of one 32-bit word. -/
def wordHex (w : Nat) : List Char :=
  [hexDigit ((w >>> 28) &&& 15), hexDigit ((w >>> 24) &&& 15),
   hexDigit ((w >>> 20) &&& 15), hexDigit ((w >>> 16) &&& 15),
   hexDigit ((w >>> 12) &&& 15), hexDigit ((w >>> 8) &&& 15),
   hexDigit ((w >>> 4) &&& 15), hexDigit (w &&& 15)]

/-- The model of `hashlib.sha256(msg).hexdigest()`, as a character list. -/
def sha256HexChars (msg : List Nat) : List Char :=
  (sha256Words msg).flatMap wordHex

/-! ### UTF-8 encoding (model of Python's `str.encode()`) -/

/-- UTF-8 bytes of one character. -/
def utf8Char (c : Char) : List Nat :=
  let n := c.toNat
  if n < 0x80 then [n]
  else if n < 0x800 then [0xC0 ||| (n >>> 6), 0x80 ||| (n &&& 0x3F)]
  else if n < 0x10000 then
    [0xE0 ||| (n >>> 12), 0x80 ||| ((n >>> 6) &&& 0x3F), 0x80 ||| (n &&& 0x3F)]
  else
    [0xF0 ||| (n >>> 18), 0x80 ||| ((n >>> 12) &&& 0x3F),
     0x80 ||| ((n >>> 6) &&& 0x3F), 0x80 ||| (n &&& 0x3F)]

/-- UTF-8 encoding of a string, the model of `str.encode()`. -/
def utf8Encode (s : String) : List Nat := s.toList.flatMap utf8Char

/-! ### Data model

Python blocks are dictionaries `{"index": ..., "timestamp": ...,
"transactions": [...], "proof": ..., "previous_hash": ...}` (`new_block`,
blockchain.py lines 73-79).  We model them as records; the dictionary view
needed by `json.dumps(block, sort_keys=True)` is recovered by `blockEntries`,
which lists the entries in the insertion order of the source's dict literal.
Timestamps are modelled as integers (`time.time()` returns a float; the claims
under verification do not depend on its value, and `json.dumps` of an integer
timestamp is its decimal form).
-/

/-- A transaction, as appended by `new_transaction` (lines 113-117). -/
structure Transaction where
  sender : String
  recipient : String
  amount : Int
deriving DecidableEq, Repr

/-- A JSON-serializable dictionary value as used in a block: the
`previous_hash` field holds an `int` for the genesis block (`__init__` passes
`previous_hash=1`) and a hex digest string otherwise, and the other fields are
numbers or transaction lists. -/
inductive EVal where
  | int (n : Int)
  | str (s : String)
  | txs (l : List Transaction)
deriving DecidableEq, Repr

/-- A block record. -/
structure Block where
  index : Nat
  timestamp : Nat
  transactions : List Transaction
  proof : Int
  previous_hash : EVal
deriving DecidableEq, Repr

/-- The `Blockchain` instance state: attributes `chain`,
`current_transactions` and `nodes` set up in `__init__` (lines 56-59).  The
Python `set` of nodes is modelled as a list fixing an iteration order. -/
structure BlockchainState where
  chain : List Block
  current_transactions : List Transaction
  nodes : List String
deriving DecidableEq, Repr

/-! ### Canonical JSON serialization (model of `json.dumps(-, sort_keys=True)`) -/

/-- Four fixed-width hex digits, as used in JSON `\uXXXX` escapes. -/
def hex4 (n : Nat) : String :=
  String.mk [hexDigit ((n >>> 12) &&& 15), hexDigit ((n >>> 8) &&& 15),
             hexDigit ((n >>> 4) &&& 15), hexDigit (n &&& 15)]

/-- Escaping of one character inside a JSON string, following
`json.dumps` with its default `ensure_ascii=True`. -/
def jsonEscapeChar (c : Char) : String :=
  if c = '"' then "\\\""
  else if c = '\\' then "\\\\"
  else if c = '\n' then "\\n"
  else if c = '\t' then "\\t"
  else if c = '\r' then "\\r"
  else if c.toNat = 8 then "\\b"
  else if c.toNat = 12 then "\\f"
  else if c.toNat < 0x20 then "\\u" ++ hex4 c.toNat
  else if c.toNat < 0x7F then String.mk [c]
  else if c.toNat < 0x10000 then "\\u" ++ hex4 c.toNat
  else
    let m := c.toNat - 0x10000
    "\\u" ++ hex4 (0xD800 + (m >>> 10)) ++ "\\u" ++ hex4 (0xDC00 + (m &&& 0x3FF))

/-- JSON serialization of a string. -/
def jsonString (s : String) : String :=
  "\"" ++ String.join (s.toList.map jsonEscapeChar) ++ "\""

/-- JSON serialization of one transaction dictionary.  Its keys `sender`,
`recipient`, `amount` are emitted in sorted order (`amount`, `recipient`,
`sender`), as `sort_keys=True` sorts every dictionary recursively. -/
def dumpTx (t : Transaction) : String :=
  "\x7b\"amount\": " ++ toString t.amount ++ ", \"recipient\": " ++
    jsonString t.recipient ++ ", \"sender\": " ++ jsonString t.sender ++ "\x7d"

/-- JSON serialization of a dictionary value. -/
def dumpEVal : EVal → String
  | .int n => toString n
  | .str s => jsonString s
  | .txs l => "[" ++ String.intercalate ", " (l.map dumpTx) ++ "]"

/-- Key order used by `sort_keys=True`: string comparison on the keys. -/
def entryLe (a b : String × EVal) : Prop := a.1 ≤ b.1

instance : DecidableRel entryLe := fun a b =>
  decidable_of_iff (a.1.toList ≤ b.1.toList) String.le_iff_toList_le.symm

instance : IsTotal (String × EVal) entryLe := ⟨fun a b => le_total a.1 b.1⟩

instance : IsTrans (String × EVal) entryLe := ⟨fun _ _ _ => le_trans⟩

/-- Sorting of a dictionary's entries by key, the model of
`sort_keys=True` (Python dictionaries have pairwise distinct keys, so any
comparison sort produces this result). -/
def sortEntries (l : List (String × EVal)) : List (String × EVal) :=
  List.insertionSort entryLe l

/-- Serialization of a dictionary with sorted keys and the default
`json.dumps` separators `", "` and `": "`. -/
def dumpEntries (l : List (String × EVal)) : String :=
  "\x7b" ++
    String.intercalate ", "
      ((sortEntries l).map (fun e => jsonString e.1 ++ ": " ++ dumpEVal e.2)) ++
    "\x7d"

/-- The dictionary view of a block, entries in the insertion order of the
dict literal in `new_block` (lines 73-79). -/
def blockEntries (b : Block) : List (String × EVal) :=
  [("index", .int b.index), ("timestamp", .int b.timestamp),
   ("transactions", .txs b.transactions), ("proof", .int b.proof),
   ("previous_hash", b.previous_hash)]

namespace Blockchain

/-- Model of `Blockchain.hash` applied to an arbitrary dictionary:
`hashlib.sha256(json.dumps(block, sort_keys=True).encode()).hexdigest()`
(lines 15-26). -/
def hashEntries (l : List (String × EVal)) : String :=
  String.mk (sha256HexChars (utf8Encode (dumpEntries l)))

/-- Model of `Blockchain.hash` on a block record (lines 15-26). -/
def hash (b : Block) : String := hashEntries (blockEntries b)

/-- Model of `Blockchain.is_valid_proof` (lines 28-42): the hex digest of
`f"{last_proof}{proof}"` must start with four `'0'` characters
(`guess_hash[:4] == "0000"`). -/
def is_valid_proof (last_proof proof : Int) : Bool :=
  let guess := utf8Encode (toString last_proof ++ toString proof)
  let guess_hash := sha256HexChars guess
  guess_hash.take 4 == "0000".toList

/-- Model of `Blockchain.last_block` (lines 44-51): `self.chain[-1]`, which
raises `IndexError` on an empty chain. -/
def last_block (s : BlockchainState) : Except String Block :=
  match s.chain.getLast? with
  | some b => .ok b
  | none => .error "IndexError"

/-- Python truthiness of the `previous_hash` argument values representable as
`EVal`: `0`, `""` and `[]` are falsy. -/
def truthy : EVal → Bool
  | .int n => n != 0
  | .str s => s != ""
  | .txs l => !l.isEmpty

/-- Model of `Blockchain.new_block` (lines 63-84).  The `previous_hash`
parameter defaults to `None` (modelled as `none`); the block's field is
`previous_hash or self.hash(self.chain[-1])`, i.e. the supplied value when
truthy, otherwise the hash of the last block (raising `IndexError` when the
chain is empty).  The timestamp is passed in explicitly, standing for
`time.time()`. -/
def new_block (s : BlockchainState) (t : Nat) (proof : Int)
    (previous_hash : Option EVal := none) : Except String (Block × BlockchainState) :=
  let supplied : Option EVal :=
    match previous_hash with
    | some v => if truthy v then some v else none
    | none => none
  let ph : Except String EVal :=
    match supplied with
    | some v => .ok v
    | none =>
      match s.chain.getLast? with
      | some lb => .ok (.str (hash lb))
      | none => .error "IndexError"
  match ph with
  | .error e => .error e
  | .ok v =>
    let block : Block :=
      { index := s.chain.length + 1, timestamp := t,
        transactions := s.current_transactions, proof := proof, previous_hash := v }
    .ok (block, { s with chain := s.chain ++ [block], current_transactions := [] })

/-- Model of `Blockchain.__init__` (lines 53-61): empty chain, empty pending
pool and empty node set, then `new_block(proof=100, previous_hash=1)` creates
the genesis block. -/
def initState (t : Nat) : Except String BlockchainState :=
  (new_block ⟨[], [], []⟩ t 100 (some (.int 1))).map (·.2)

/-- Model of `Blockchain.proof_of_work` (lines 86-100): the Python loop tries
`proof = 0, 1, 2, ...` and returns the first value accepted by
`is_valid_proof`; on the hypothesis that a solution exists this is the least
one, `Nat.find`. -/
def proof_of_work (last_proof : Int)
    (h : ∃ p : Nat, is_valid_proof last_proof p = true) : Nat :=
  Nat.find h

/-- Model of `Blockchain.new_transaction` (lines 102-119): appends the
transaction to `current_transactions`, then returns
`self.last_block["index"] + 1` (raising `IndexError` on an empty chain, after
the append has mutated the pool). -/
def new_transaction (s : BlockchainState) (sender recipient : String)
    (amount : Int) : Except String (Int × BlockchainState) :=
  let s' : BlockchainState :=
    { s with current_transactions :=
        s.current_transactions ++ [{ sender := sender, recipient := recipient, amount := amount }] }
  match s.chain.getLast? with
  | some lb => .ok ((lb.index : Int) + 1, s')
  | none => .error "IndexError"

/-- Model of `Blockchain.register_node` (lines 121-130), taking the already
parsed network location (`urlparse(address).netloc` is delegated to the
standard library, outside this module): set insertion into `nodes`. -/
def register_node (s : BlockchainState) (netloc : String) : BlockchainState :=
  if netloc ∈ s.nodes then s else { s with nodes := s.nodes ++ [netloc] }

/-- Comparison `block["previous_hash"] == self.hash(last_block)` between a
dictionary value and a digest string: in Python an `int` never equals a
`str`. -/
def beqEValStr : EVal → String → Bool
  | .str t, s => t == s
  | _, _ => false

/-- The `while current_index < len(chain)` walk of `is_valid_chain`
(lines 144-160), carrying `last_block`. -/
def is_valid_chain_loop : Block → List Block → Bool
  | _, [] => true
  | last, block :: rest =>
    if !beqEValStr block.previous_hash (hash last) then false
    else if !is_valid_proof last.proof block.proof then false
    else is_valid_chain_loop block rest

/-- Model of `Blockchain.is_valid_chain` (lines 132-162): `chain[0]` raises
`IndexError` on an empty list, otherwise the pairwise walk checks the hash
link and the proof of work and short-circuits on the first failure. -/
def is_valid_chain (chain : List Block) : Except String Bool :=
  match chain with
  | [] => .error "IndexError"
  | b :: rest => .ok (is_valid_chain_loop b rest)

/-- Model of one peer's `GET /chain` response as read by `resolve_conflicts`:
the HTTP status code and the optional `length` and `chain` members of the JSON
body (`response.json()["length"]` raises `KeyError` when the member is
missing). -/
structure PeerResponse where
  status_code : Nat
  lengthField : Option Int
  chainField : Option (List Block)
deriving Repr

/-- The `for node in neighbors` loop of `resolve_conflicts` (lines 179-189),
threading `max_length` and `new_chain`.  A non-200 response is skipped; a 200
response missing `length` or `chain` raises `KeyError`; `is_valid_chain` is
consulted only when `length > max_length` (Python's short-circuit `and`), and
its `IndexError` propagates. -/
def resolve_loop (fetch : String → PeerResponse) :
    List String → Int → Option (List Block) → Except String (Int × Option (List Block))
  | [], max_length, new_chain => .ok (max_length, new_chain)
  | node :: rest, max_length, new_chain =>
    if (fetch node).status_code = 200 then
      match (fetch node).lengthField with
      | none => .error "KeyError"
      | some length =>
        match (fetch node).chainField with
        | none => .error "KeyError"
        | some chain =>
          if max_length < length then
            match is_valid_chain chain with
            | .error e => .error e
            | .ok true => resolve_loop fetch rest length (some chain)
            | .ok false => resolve_loop fetch rest max_length new_chain
          else resolve_loop fetch rest max_length new_chain
    else resolve_loop fetch rest max_length new_chain

/-- Model of `Blockchain.resolve_conflicts` (lines 164-196).  `fetch`
stands for `requests.get(f"http://{node}/chain")`; `max_length` starts at
`len(self.chain)`; after the loop, `if new_chain:` (Python truthiness: a
non-empty candidate list) replaces `self.chain` and returns `True`, else
`False`. -/
def resolve_conflicts (s : BlockchainState) (fetch : String → PeerResponse) :
    Except String (Bool × BlockchainState) :=
  match resolve_loop fetch s.nodes (s.chain.length : Int) none with
  | .error e => .error e
  | .ok (_, some c) =>
    if c.isEmpty then .ok (false, s) else .ok (true, { s with chain := c })
  | .ok (_, none) => .ok (false, s)

end Blockchain

/-! ### Concrete fixtures

Reference values cross-checked against the Python implementation:
`json.dumps` of the genesis dictionary below is
`{"index": 1, "previous_hash": 1, "proof": 100, "timestamp": 1234, "transactions": []}`
whose SHA-256 hex digest is
`06542cf796c05a44aee3944074e9f795ff43de48e4f9b2f10c8c0649efa50857`, and
`35293` and `88145` are the two smallest proof-of-work solutions following the
proof `100`. -/

open Blockchain

/-- A genesis block as produced by `__init__` at timestamp 1234. -/
def genesisBlock : Block :=
  { index := 1, timestamp := 1234, transactions := [], proof := 100, previous_hash := .int 1 }

/-- A second block correctly linked to `genesisBlock`, carrying the least
proof-of-work solution after proof `100`. -/
def nextBlock : Block :=
  { index := 2, timestamp := 5678, transactions := [], proof := 35293,
    previous_hash := .str "06542cf796c05a44aee3944074e9f795ff43de48e4f9b2f10c8c0649efa50857" }

/-- The block `nextBlock` with its proof corrupted to the second
proof-of-work solution after proof `100`. -/
def nextBlockAltProof : Block :=
  { index := 2, timestamp := 5678, transactions := [], proof := 88145,
    previous_hash := .str "06542cf796c05a44aee3944074e9f795ff43de48e4f9b2f10c8c0649efa50857" }

/-- The adjacency relation checked by `is_valid_chain` on consecutive blocks:
the stored `previous_hash` equals the hash of the predecessor, and the pair of
proofs passes `is_valid_proof`. -/
def linkOk (prev cur : Block) : Prop :=
  beqEValStr cur.previous_hash (hash prev) = true ∧
    is_valid_proof prev.proof cur.proof = true

/-- A peer response with status 200 carrying both JSON members. -/
def goodResp (r : PeerResponse) (len : Int) (c : List Block) : Prop :=
  r.status_code = 200 ∧ r.lengthField = some len ∧ r.chainField = some c

/-- Well-formedness of a peer response: whenever the status is 200 both JSON
members are present and the reported chain is non-empty, so reading it raises
neither `KeyError` nor `IndexError`. -/
def wfResp (r : PeerResponse) : Prop :=
  r.status_code = 200 →
    ∃ len c, r.lengthField = some len ∧ r.chainField = some c ∧ c ≠ []

/-- Honesty of a peer response: a 200 response carries a chain together with
its true length. -/
def honestResp (r : PeerResponse) : Prop :=
  r.status_code = 200 →
    ∃ c, r.lengthField = some ((c.length : Int)) ∧ r.chainField = some c

/-- A peer that reports its one-block chain together with its true length 1. -/
def tieFetch : String → PeerResponse := fun _ => ⟨200, some 1, some [genesisBlock]⟩

/-- A peer that reports a chain of one block but claims length 5. -/
def lieFetch : String → PeerResponse := fun _ => ⟨200, some 5, some [genesisBlock]⟩

/-- A network in which peer `a` answers 200 without a `length` member while
every other peer answers a well-formed chain of reported length 5. -/
def missingFieldFetch : String → PeerResponse := fun node =>
  if node = "a" then ⟨200, none, some [genesisBlock]⟩ else ⟨200, some 5, some [genesisBlock]⟩

/-- A network in which every peer answers with status 404. -/
def notFoundFetch : String → PeerResponse := fun _ => ⟨404, none, none⟩

/-- A peer that answers 200 with a `length` member but no `chain` member. -/
def noChainFetch : String → PeerResponse := fun _ => ⟨200, some 5, none⟩

/-! ### Proof of work (claim C3) -/

/-- C3: for every `last_proof` admitting some valid proof, `proof_of_work`
returns a proof accepted by `is_valid_proof`, and no smaller natural number is
accepted: the brute-force search from 0 returns the least valid proof. -/
theorem proof_of_work_finds_least (last_proof : Int)
    (h : ∃ p : Nat, is_valid_proof last_proof p = true) :
    is_valid_proof last_proof (proof_of_work last_proof h) = true ∧
      ∀ m : Nat, m < proof_of_work last_proof h → is_valid_proof last_proof m ≠ true := by
  refine ⟨Nat.find_spec h, fun m hm => ?_⟩
  simpa using Nat.find_min h hm

/-- Helper for the C3 witness: `35293` solves the puzzle for `last_proof =
100`, so a valid proof exists there. -/
lemma exists_valid_proof_100 : ∃ p : Nat, is_valid_proof 100 p = true :=
  ⟨35293, by rfl⟩

/-- Witness for C3 at `last_proof = 100`. -/
theorem proof_of_work_finds_least_witness :
    (∃ p : Nat, is_valid_proof 100 p = true) ∧
      is_valid_proof 100 (proof_of_work 100 exists_valid_proof_100) = true ∧
      ∀ m : Nat, m < proof_of_work 100 exists_valid_proof_100 →
        is_valid_proof 100 m ≠ true :=
  ⟨exists_valid_proof_100,
   (proof_of_work_finds_least 100 exists_valid_proof_100).1,
   (proof_of_work_finds_least 100 exists_valid_proof_100).2⟩

/-! ### Appending blocks (claims C5 and C10) -/

/-- C5: on a state with a non-empty chain, `new_block` with `previous_hash`
omitted appends exactly one block whose index is `len(chain)+1`, whose
transactions are the whole pending pool, and whose `previous_hash` is the hash
of the previous last block; the new pending pool is empty. -/
theorem new_block_appends (s : BlockchainState) (t : Nat) (p : Int) (lb : Block)
    (h : s.chain.getLast? = some lb) :
    new_block s t p none =
      .ok ({ index := s.chain.length + 1, timestamp := t,
             transactions := s.current_transactions, proof := p,
             previous_hash := .str (hash lb) },
           { chain := s.chain ++
               [{ index := s.chain.length + 1, timestamp := t,
                  transactions := s.current_transactions, proof := p,
                  previous_hash := .str (hash lb) }],
             current_transactions := [], nodes := s.nodes }) ∧
      ∀ b s', new_block s t p none = .ok (b, s') →
        s'.chain.length = s.chain.length + 1 ∧ s'.chain = s.chain ++ [b] := by
  have hmain : new_block s t p none =
      .ok ({ index := s.chain.length + 1, timestamp := t,
             transactions := s.current_transactions, proof := p,
             previous_hash := .str (hash lb) },
           { chain := s.chain ++
               [{ index := s.chain.length + 1, timestamp := t,
                  transactions := s.current_transactions, proof := p,
                  previous_hash := .str (hash lb) }],
             current_transactions := [], nodes := s.nodes }) := by
    simp [new_block, h]
  refine ⟨hmain, fun b s' hb => ?_⟩
  rw [hmain] at hb
  obtain ⟨hb1, hb2⟩ : _ ∧ _ := by simpa using hb
  subst hb1; subst hb2
  simp

/-- Witness for C5: appending to the one-block genesis chain. -/
theorem new_block_appends_witness :
    ([genesisBlock].getLast? = some genesisBlock) ∧
      new_block ⟨[genesisBlock], [], []⟩ 5678 35293 none =
        .ok ({ index := 2, timestamp := 5678, transactions := [], proof := 35293,
               previous_hash := .str (hash genesisBlock) },
             { chain := [genesisBlock,
                 { index := 2, timestamp := 5678, transactions := [], proof := 35293,
                   previous_hash := .str (hash genesisBlock) }],
               current_transactions := [], nodes := [] }) := by
  refine ⟨rfl, ?_⟩
  have h := (new_block_appends ⟨[genesisBlock], [], []⟩ 5678 35293 genesisBlock rfl).1
  simpa using h

/-- C10: the supplied `previous_hash` is selected by Python truthiness
(`previous_hash or self.hash(self.chain[-1])`): a falsy argument (`0`, `""`,
`[]`) is discarded exactly as if the argument had been omitted, and a truthy
argument is stored verbatim in the new block. -/
theorem new_block_truthiness :
    (∀ (s : BlockchainState) (t : Nat) (p : Int) (v : EVal), truthy v = false →
      new_block s t p (some v) = new_block s t p none) ∧
    (∀ (s : BlockchainState) (t : Nat) (p : Int) (v : EVal), truthy v = true →
      new_block s t p (some v) =
        .ok ({ index := s.chain.length + 1, timestamp := t,
               transactions := s.current_transactions, proof := p, previous_hash := v },
             { chain := s.chain ++
                 [{ index := s.chain.length + 1, timestamp := t,
                    transactions := s.current_transactions, proof := p, previous_hash := v }],
               current_transactions := [], nodes := s.nodes })) ∧
    truthy (.int 0) = false ∧ truthy (.str "") = false ∧ truthy (.txs []) = false := by
  refine ⟨fun s t p v hv => ?_, fun s t p v hv => ?_, rfl, rfl, rfl⟩
  · simp [new_block, hv]
  · simp [new_block, hv]

/-- Witness for C10: supplying the falsy `0` on the genesis chain behaves like
omitting the argument, and a truthy string is stored verbatim. -/
theorem new_block_truthiness_witness :
    (truthy (.int 0) = false) ∧ (truthy (.str "x") = true) ∧
      new_block ⟨[genesisBlock], [], []⟩ 5678 35293 (some (.int 0)) =
        new_block ⟨[genesisBlock], [], []⟩ 5678 35293 none ∧
      new_block ⟨[genesisBlock], [], []⟩ 5678 35293 (some (.str "x")) =
        .ok ({ index := 2, timestamp := 5678, transactions := [], proof := 35293,
               previous_hash := .str "x" },
             { chain := [genesisBlock,
                 { index := 2, timestamp := 5678, transactions := [], proof := 35293,
                   previous_hash := .str "x" }],
               current_transactions := [], nodes := [] }) := by
  refine ⟨rfl, rfl, new_block_truthiness.1 _ _ _ _ rfl, ?_⟩
  have h := new_block_truthiness.2.1 ⟨[genesisBlock], [], []⟩ 5678 35293 (.str "x") rfl
  simpa using h

/-! ### Shape of the hex digest (claim C7) -/

/-- The compression rounds preserve the 8-word state shape. -/
lemma shaRound_length8 : ∀ (ks ws : List Nat) (a b c d e f g h : Nat),
    (shaRound ks ws [a, b, c, d, e, f, g, h]).length = 8 := by
  intro ks
  induction ks with
  | nil => intro ws a b c d e f g h; rfl
  | cons k ks ih =>
    intro ws a b c d e f g h
    cases ws with
    | nil => rfl
    | cons x xs => simpa [shaRound] using ih xs _ _ _ _ _ _ _ _

/-- A list of length 8 is an explicit 8-element list. -/
lemma length_eq_eight {l : List Nat} (hl : l.length = 8) :
    ∃ a b c d e f g h, l = [a, b, c, d, e, f, g, h] := by
  rcases l with _ | ⟨a, _ | ⟨b, _ | ⟨c, _ | ⟨d, _ | ⟨e, _ | ⟨f, _ | ⟨g, _ | ⟨h, _ | ⟨i, t⟩⟩⟩⟩⟩⟩⟩⟩⟩ <;>
    simp_all

/-- Chunk processing preserves the 8-word state shape. -/
lemma processChunk_length {state : List Nat} (chunk : List Nat)
    (h : state.length = 8) : (processChunk state chunk).length = 8 := by
  obtain ⟨a, b, c, d, e, f, g, h₀, rfl⟩ := length_eq_eight h
  simp [processChunk, List.length_zipWith, shaRound_length8]

/-- A SHA-256 digest always consists of eight words. -/
lemma sha256Words_length (msg : List Nat) : (sha256Words msg).length = 8 := by
  have main : ∀ (chunks : List (List Nat)) (state : List Nat), state.length = 8 →
      (chunks.foldl processChunk state).length = 8 := by
    intro chunks
    induction chunks with
    | nil => intro state h; simpa using h
    | cons c cs ih => intro state h; exact ih _ (processChunk_length c h)
  exact main _ shaH0 rfl

/-- Each word contributes exactly eight hex characters. -/
lemma flatMap_wordHex_length (l : List Nat) : (l.flatMap wordHex).length = 8 * l.length := by
  induction l with
  | nil => rfl
  | cons w ws ih => simp [wordHex, ih]; omega

/-- The hex digest always has 64 characters. -/
lemma sha256HexChars_length (msg : List Nat) : (sha256HexChars msg).length = 64 := by
  rw [sha256HexChars, flatMap_wordHex_length, sha256Words_length]

/-- C7: `is_valid_proof last_proof proof` is true exactly when the 64-character
hexadecimal text of the SHA-256 digest of the concatenated decimal texts of the
two proofs begins with the run `"0000"` of four zero characters (a comparison
of the leading slice of the hex string, `guess_hash[:4] == "0000"`). -/
theorem is_valid_proof_iff_leading_zeros (last_proof proof : Int) :
    (is_valid_proof last_proof proof = true ↔
      ∃ rest, sha256HexChars (utf8Encode (toString last_proof ++ toString proof)) =
        '0' :: '0' :: '0' :: '0' :: rest) ∧
    (sha256HexChars (utf8Encode (toString last_proof ++ toString proof))).length = 64 := by
  refine ⟨?_, sha256HexChars_length _⟩
  rw [is_valid_proof]
  simp only [beq_iff_eq]
  constructor
  · intro h
    refine ⟨(sha256HexChars (utf8Encode (toString last_proof ++ toString proof))).drop 4, ?_⟩
    conv_lhs => rw [← List.take_append_drop 4
      (sha256HexChars (utf8Encode (toString last_proof ++ toString proof)))]
    rw [h]
    rfl
  · rintro ⟨rest, h⟩
    rw [h]
    rfl

/-! ### The consensus loop (claims C1, C2, C6) -/

/-- A non-empty chain never raises `IndexError` in `is_valid_chain`. -/
lemma is_valid_chain_ok_of_ne_nil {c : List Block} (h : c ≠ []) :
    ∃ b, is_valid_chain c = .ok b := by
  cases c with
  | nil => exact absurd rfl h
  | cons b rest => exact ⟨_, rfl⟩

/-- A chain on which `is_valid_chain` returns a boolean is non-empty. -/
lemma ne_nil_of_is_valid_chain_ok {c : List Block} {b : Bool}
    (h : is_valid_chain c = .ok b) : c ≠ [] := by
  cases c with
  | nil => simp [is_valid_chain] at h
  | cons x rest => simp

/-- `max_length` never decreases along the consensus loop. -/
lemma resolve_loop_mono {fetch : String → PeerResponse} :
    ∀ {nodes : List String} {m : Int} {nc : Option (List Block)} {m' : Int}
      {nc' : Option (List Block)},
      resolve_loop fetch nodes m nc = .ok (m', nc') → m ≤ m' := by
  intro nodes
  induction nodes with
  | nil =>
    intro m nc m' nc' h
    simp only [resolve_loop, Except.ok.injEq, Prod.mk.injEq] at h
    exact le_of_eq h.1
  | cons node rest ih =>
    intro m nc m' nc' h
    by_cases h200 : (fetch node).status_code = 200
    · rcases hlen : (fetch node).lengthField with _ | len
      · simp [resolve_loop, h200, hlen] at h
      · rcases hch : (fetch node).chainField with _ | chain
        · simp [resolve_loop, h200, hlen, hch] at h
        · by_cases hgt : m < len
          · rcases hv : is_valid_chain chain with e | b
            · simp [resolve_loop, h200, hlen, hch, hgt, hv] at h
            · cases b with
              | false =>
                have h' : resolve_loop fetch rest m nc = .ok (m', nc') := by
                  simpa [resolve_loop, h200, hlen, hch, hgt, hv] using h
                exact ih h'
              | true =>
                have h' : resolve_loop fetch rest len (some chain) = .ok (m', nc') := by
                  simpa [resolve_loop, h200, hlen, hch, hgt, hv] using h
                exact le_trans (le_of_lt hgt) (ih h')
          · have h' : resolve_loop fetch rest m nc = .ok (m', nc') := by
              simpa [resolve_loop, h200, hlen, hch, hgt] using h
            exact ih h'
    · have h' : resolve_loop fetch rest m nc = .ok (m', nc') := by
        simpa [resolve_loop, h200] using h
      exact ih h'

/-- When the consensus loop terminates without an exception, either the
accumulator is unchanged, or the final candidate was reported by some scanned
node with status 200, reported length equal to the final `max_length`
(strictly above the initial one), and a chain passing `is_valid_chain`. -/
lemma resolve_loop_cases {fetch : String → PeerResponse} :
    ∀ {nodes : List String} {m : Int} {nc : Option (List Block)} {m' : Int}
      {nc' : Option (List Block)},
      resolve_loop fetch nodes m nc = .ok (m', nc') →
      (m' = m ∧ nc' = nc) ∨
        ∃ node ∈ nodes, ∃ c, nc' = some c ∧ goodResp (fetch node) m' c ∧
          is_valid_chain c = .ok true ∧ m < m' := by
  intro nodes
  induction nodes with
  | nil =>
    intro m nc m' nc' h
    simp only [resolve_loop, Except.ok.injEq, Prod.mk.injEq] at h
    exact Or.inl ⟨h.1.symm, h.2.symm⟩
  | cons node rest ih =>
    intro m nc m' nc' h
    by_cases h200 : (fetch node).status_code = 200
    · rcases hlen : (fetch node).lengthField with _ | len
      · simp [resolve_loop, h200, hlen] at h
      · rcases hch : (fetch node).chainField with _ | chain
        · simp [resolve_loop, h200, hlen, hch] at h
        · by_cases hgt : m < len
          · rcases hv : is_valid_chain chain with e | b
            · simp [resolve_loop, h200, hlen, hch, hgt, hv] at h
            · cases b with
              | false =>
                have h' : resolve_loop fetch rest m nc = .ok (m', nc') := by
                  simpa [resolve_loop, h200, hlen, hch, hgt, hv] using h
                rcases ih h' with hsame | ⟨n, hn, c, hc, hg, hvc, hlt⟩
                · exact Or.inl hsame
                · exact Or.inr ⟨n, List.mem_cons_of_mem _ hn, c, hc, hg, hvc, hlt⟩
              | true =>
                have h' : resolve_loop fetch rest len (some chain) = .ok (m', nc') := by
                  simpa [resolve_loop, h200, hlen, hch, hgt, hv] using h
                rcases ih h' with ⟨hm, hnc⟩ | ⟨n, hn, c, hc, hg, hvc, hlt⟩
                · subst hm
                  exact Or.inr ⟨node, List.mem_cons_self _ _, chain, hnc,
                    ⟨h200, hlen, hch⟩, hv, hgt⟩
                · exact Or.inr ⟨n, List.mem_cons_of_mem _ hn, c, hc, hg, hvc,
                    lt_trans hgt hlt⟩
          · have h' : resolve_loop fetch rest m nc = .ok (m', nc') := by
              simpa [resolve_loop, h200, hlen, hch, hgt] using h
            rcases ih h' with hsame | ⟨n, hn, c, hc, hg, hvc, hlt⟩
            · exact Or.inl hsame
            · exact Or.inr ⟨n, List.mem_cons_of_mem _ hn, c, hc, hg, hvc, hlt⟩
    · have h' : resolve_loop fetch rest m nc = .ok (m', nc') := by
        simpa [resolve_loop, h200] using h
      rcases ih h' with hsame | ⟨n, hn, c, hc, hg, hvc, hlt⟩
      · exact Or.inl hsame
      · exact Or.inr ⟨n, List.mem_cons_of_mem _ hn, c, hc, hg, hvc, hlt⟩

/-- The final `max_length` dominates the reported length of every valid
200-response scanned by the loop. -/
lemma resolve_loop_max {fetch : String → PeerResponse} :
    ∀ {nodes : List String} {m : Int} {nc : Option (List Block)} {m' : Int}
      {nc' : Option (List Block)},
      resolve_loop fetch nodes m nc = .ok (m', nc') →
      ∀ node ∈ nodes, ∀ len c, goodResp (fetch node) len c →
        is_valid_chain c = .ok true → len ≤ m' := by
  intro nodes
  induction nodes with
  | nil =>
    intro m nc m' nc' _ node hmem
    exact absurd hmem (List.not_mem_nil node)
  | cons node rest ih =>
    intro m nc m' nc' h n hmem len c hg hvc
    by_cases h200 : (fetch node).status_code = 200
    · rcases hlen : (fetch node).lengthField with _ | len₀
      · simp [resolve_loop, h200, hlen] at h
      · rcases hch : (fetch node).chainField with _ | chain
        · simp [resolve_loop, h200, hlen, hch] at h
        · by_cases hgt : m < len₀
          · rcases hv : is_valid_chain chain with e | b
            · simp [resolve_loop, h200, hlen, hch, hgt, hv] at h
            · cases b with
              | false =>
                have h' : resolve_loop fetch rest m nc = .ok (m', nc') := by
                  simpa [resolve_loop, h200, hlen, hch, hgt, hv] using h
                rcases List.mem_cons.mp hmem with rfl | hmem'
                · have hceq : c = chain := by
                    have := hg.2.2.symm.trans hch
                    exact Option.some.inj this
                  subst hceq
                  rw [hvc] at hv
                  cases hv
                · exact ih h' n hmem' len c hg hvc
              | true =>
                have h' : resolve_loop fetch rest len₀ (some chain) = .ok (m', nc') := by
                  simpa [resolve_loop, h200, hlen, hch, hgt, hv] using h
                rcases List.mem_cons.mp hmem with rfl | hmem'
                · have hleq : len = len₀ := by
                    have := hg.2.1.symm.trans hlen
                    exact Option.some.inj this
                  subst hleq
                  exact resolve_loop_mono h'
                · exact ih h' n hmem' len c hg hvc
          · have h' : resolve_loop fetch rest m nc = .ok (m', nc') := by
              simpa [resolve_loop, h200, hlen, hch, hgt] using h
            rcases List.mem_cons.mp hmem with rfl | hmem'
            · have hleq : len = len₀ := by
                have := hg.2.1.symm.trans hlen
                exact Option.some.inj this
              subst hleq
              exact le_trans (not_lt.mp hgt) (resolve_loop_mono h')
            · exact ih h' n hmem' len c hg hvc
    · have h' : resolve_loop fetch rest m nc = .ok (m', nc') := by
        simpa [resolve_loop, h200] using h
      rcases List.mem_cons.mp hmem with rfl | hmem'
      · exact absurd hg.1 h200
      · exact ih h' n hmem' len c hg hvc

/-- Once a candidate chain is recorded, the loop always ends with some
candidate. -/
lemma resolve_loop_some {fetch : String → PeerResponse} :
    ∀ {nodes : List String} {m : Int} {c₀ : List Block} {m' : Int}
      {nc' : Option (List Block)},
      resolve_loop fetch nodes m (some c₀) = .ok (m', nc') → ∃ c, nc' = some c := by
  intro nodes
  induction nodes with
  | nil =>
    intro m c₀ m' nc' h
    simp only [resolve_loop, Except.ok.injEq, Prod.mk.injEq] at h
    exact ⟨c₀, h.2.symm⟩
  | cons node rest ih =>
    intro m c₀ m' nc' h
    by_cases h200 : (fetch node).status_code = 200
    · rcases hlen : (fetch node).lengthField with _ | len
      · simp [resolve_loop, h200, hlen] at h
      · rcases hch : (fetch node).chainField with _ | chain
        · simp [resolve_loop, h200, hlen, hch] at h
        · by_cases hgt : m < len
          · rcases hv : is_valid_chain chain with e | b
            · simp [resolve_loop, h200, hlen, hch, hgt, hv] at h
            · cases b with
              | false =>
                have h' : resolve_loop fetch rest m (some c₀) = .ok (m', nc') := by
                  simpa [resolve_loop, h200, hlen, hch, hgt, hv] using h
                exact ih h'
              | true =>
                have h' : resolve_loop fetch rest len (some chain) = .ok (m', nc') := by
                  simpa [resolve_loop, h200, hlen, hch, hgt, hv] using h
                exact ih h'
          · have h' : resolve_loop fetch rest m (some c₀) = .ok (m', nc') := by
              simpa [resolve_loop, h200, hlen, hch, hgt] using h
            exact ih h'
    · have h' : resolve_loop fetch rest m (some c₀) = .ok (m', nc') := by
        simpa [resolve_loop, h200] using h
      exact ih h'

/-- On a network of well-formed responses the loop never raises. -/
lemma resolve_loop_total {fetch : String → PeerResponse} :
    ∀ {nodes : List String} {m : Int} {nc : Option (List Block)},
      (∀ n ∈ nodes, wfResp (fetch n)) →
      ∃ r, resolve_loop fetch nodes m nc = .ok r := by
  intro nodes
  induction nodes with
  | nil => exact fun _ => ⟨_, rfl⟩
  | cons node rest ih =>
    intro m nc hwf
    have hwfrest : ∀ n ∈ rest, wfResp (fetch n) :=
      fun n hn => hwf n (List.mem_cons_of_mem _ hn)
    by_cases h200 : (fetch node).status_code = 200
    · obtain ⟨len, c, hlen, hch, hcne⟩ := hwf node (List.mem_cons_self _ _) h200
      by_cases hgt : m < len
      · obtain ⟨b, hb⟩ := is_valid_chain_ok_of_ne_nil hcne
        cases b with
        | false =>
          obtain ⟨r, hr⟩ := @ih m nc hwfrest
          exact ⟨r, by simp [resolve_loop, h200, hlen, hch, hgt, hb, hr]⟩
        | true =>
          obtain ⟨r, hr⟩ := @ih len (some c) hwfrest
          exact ⟨r, by simp [resolve_loop, h200, hlen, hch, hgt, hb, hr]⟩
      · obtain ⟨r, hr⟩ := @ih m nc hwfrest
        exact ⟨r, by simp [resolve_loop, h200, hlen, hch, hgt, hr]⟩
    · obtain ⟨r, hr⟩ := @ih m nc hwfrest
      exact ⟨r, by simp [resolve_loop, h200, hr]⟩

/-- If some scanned node reports a valid chain with reported length above the
running `max_length`, the loop ends with a candidate recorded. -/
lemma resolve_loop_progress {fetch : String → PeerResponse} :
    ∀ {nodes : List String} {m : Int} {m' : Int} {nc' : Option (List Block)},
      resolve_loop fetch nodes m none = .ok (m', nc') →
      (∃ n ∈ nodes, ∃ len c, goodResp (fetch n) len c ∧
        is_valid_chain c = .ok true ∧ m < len) →
      ∃ c, nc' = some c := by
  intro nodes
  induction nodes with
  | nil =>
    intro m m' nc' _ hex
    obtain ⟨n, hn, _⟩ := hex
    exact absurd hn (List.not_mem_nil n)
  | cons node rest ih =>
    intro m m' nc' h hex
    obtain ⟨n, hn, len, c, hg, hvc, hlt⟩ := hex
    by_cases h200 : (fetch node).status_code = 200
    · rcases hlen : (fetch node).lengthField with _ | len₀
      · simp [resolve_loop, h200, hlen] at h
      · rcases hch : (fetch node).chainField with _ | chain
        · simp [resolve_loop, h200, hlen, hch] at h
        · by_cases hgt : m < len₀
          · rcases hv : is_valid_chain chain with e | b
            · simp [resolve_loop, h200, hlen, hch, hgt, hv] at h
            · cases b with
              | false =>
                have h' : resolve_loop fetch rest m none = .ok (m', nc') := by
                  simpa [resolve_loop, h200, hlen, hch, hgt, hv] using h
                rcases List.mem_cons.mp hn with rfl | hn'
                · have hceq : c = chain :=
                    Option.some.inj (hg.2.2.symm.trans hch)
                  subst hceq
                  rw [hvc] at hv
                  cases hv
                · exact ih h' ⟨n, hn', len, c, hg, hvc, hlt⟩
              | true =>
                have h' : resolve_loop fetch rest len₀ (some chain) = .ok (m', nc') := by
                  simpa [resolve_loop, h200, hlen, hch, hgt, hv] using h
                exact resolve_loop_some h'
          · have h' : resolve_loop fetch rest m none = .ok (m', nc') := by
              simpa [resolve_loop, h200, hlen, hch, hgt] using h
            rcases List.mem_cons.mp hn with rfl | hn'
            · have hleq : len = len₀ :=
                Option.some.inj (hg.2.1.symm.trans hlen)
              subst hleq
              exact absurd hlt hgt
            · exact ih h' ⟨n, hn', len, c, hg, hvc, hlt⟩
    · have h' : resolve_loop fetch rest m none = .ok (m', nc') := by
        simpa [resolve_loop, h200] using h
      rcases List.mem_cons.mp hn with rfl | hn'
      · exact absurd hg.1 h200
      · exact ih h' ⟨n, hn', len, c, hg, hvc, hlt⟩

/-- On a network of honest responses none of which carries a valid chain
strictly longer than `L`, the loop returns its initial accumulator. -/
lemma resolve_loop_honest_frame {fetch : String → PeerResponse} {L : Nat} :
    ∀ {nodes : List String},
      (∀ n ∈ nodes, honestResp (fetch n)) →
      (∀ n ∈ nodes, ∀ c, (fetch n).chainField = some c →
        ¬(is_valid_chain c = .ok true ∧ L < c.length)) →
      resolve_loop fetch nodes (L : Int) none = .ok ((L : Int), none) := by
  intro nodes
  induction nodes with
  | nil => exact fun _ _ => rfl
  | cons node rest ih =>
    intro hhonest hno
    have hhr : ∀ n ∈ rest, honestResp (fetch n) :=
      fun n hn => hhonest n (List.mem_cons_of_mem _ hn)
    have hnr : ∀ n ∈ rest, ∀ c, (fetch n).chainField = some c →
        ¬(is_valid_chain c = .ok true ∧ L < c.length) :=
      fun n hn => hno n (List.mem_cons_of_mem _ hn)
    by_cases h200 : (fetch node).status_code = 200
    · obtain ⟨c, hlen, hch⟩ := hhonest node (List.mem_cons_self _ _) h200
      by_cases hgt : (L : Int) < (c.length : Int)
      · have hlenlt : L < c.length := by exact_mod_cast hgt
        have hcne : c ≠ [] := by
          intro hnil
          rw [hnil] at hlenlt
          simp at hlenlt
        obtain ⟨b, hb⟩ := is_valid_chain_ok_of_ne_nil hcne
        cases b with
        | true => exact absurd ⟨hb, hlenlt⟩ (hno node (List.mem_cons_self _ _) c hch)
        | false => simp [resolve_loop, h200, hlen, hch, hgt, hb, ih hhr hnr]
      · simp [resolve_loop, h200, hlen, hch, hgt, ih hhr hnr]
    · simp [resolve_loop, h200, ih hhr hnr]

/-- C6: when every peer honestly reports its chain with its true length and no
peer chain is both structurally valid and strictly longer than the local
chain (in particular with no peers at all, or with peer chains of exactly the
local length), `resolve_conflicts` returns `False` and the state — chain,
pending pool and node set — is completely unchanged. -/
theorem resolve_conflicts_no_replacement (s : BlockchainState)
    (fetch : String → PeerResponse)
    (hhonest : ∀ n ∈ s.nodes, honestResp (fetch n))
    (hno : ∀ n ∈ s.nodes, ∀ c, (fetch n).chainField = some c →
      ¬(is_valid_chain c = .ok true ∧ s.chain.length < c.length)) :
    resolve_conflicts s fetch = .ok (false, s) := by
  simp only [resolve_conflicts]
  rw [resolve_loop_honest_frame hhonest hno]

/-- Witness for C6: a single peer honestly reporting a chain of exactly the
local length (the tie rule), and separately the empty peer set. -/
theorem resolve_conflicts_no_replacement_witness :
    (∀ n ∈ ["peer"], honestResp (tieFetch n)) ∧
    (∀ n ∈ ["peer"], ∀ c, (tieFetch n).chainField = some c →
      ¬(is_valid_chain c = .ok true ∧
        (BlockchainState.mk [genesisBlock] [] ["peer"]).chain.length < c.length)) ∧
    resolve_conflicts ⟨[genesisBlock], [], ["peer"]⟩ tieFetch =
      .ok (false, ⟨[genesisBlock], [], ["peer"]⟩) ∧
    resolve_conflicts ⟨[genesisBlock], [], []⟩ tieFetch =
      .ok (false, ⟨[genesisBlock], [], []⟩) := by
  have h1 : ∀ n ∈ ["peer"], honestResp (tieFetch n) := by
    intro n _ _
    exact ⟨[genesisBlock], rfl, rfl⟩
  have h2 : ∀ n ∈ ["peer"], ∀ c, (tieFetch n).chainField = some c →
      ¬(is_valid_chain c = .ok true ∧
        (BlockchainState.mk [genesisBlock] [] ["peer"]).chain.length < c.length) := by
    intro n _ c hc
    have hceq : c = [genesisBlock] := (Option.some.inj hc).symm
    subst hceq
    rintro ⟨-, hlen⟩
    simp at hlen
  refine ⟨h1, h2, resolve_conflicts_no_replacement _ _ h1 h2, ?_⟩
  exact resolve_conflicts_no_replacement ⟨[genesisBlock], [], []⟩ tieFetch
    (by intro n hn; cases hn) (by intro n hn; cases hn)

/-- C2 counterexample: with peer `a` answering 200 without a `length` member
and peer `b` answering a well-formed strictly longer valid chain, the missing
member raises `KeyError` and aborts the whole resolution instead of skipping
peer `a`; peer `b` alone would have replaced the chain. -/
theorem resolve_conflicts_missing_field_cex :
    resolve_conflicts ⟨[genesisBlock], [], ["a", "b"]⟩ missingFieldFetch =
      .error "KeyError" ∧
    resolve_conflicts ⟨[genesisBlock], [], ["b"]⟩ missingFieldFetch =
      .ok (true, ⟨[genesisBlock], [], ["b"]⟩) := by
  constructor
  · rfl
  · rfl

/-- C2 (amended): a peer response with a non-200 status is treated as no data
from that peer — the loop moves on to the remaining peers with its state
unchanged — but a 200 response missing the `length` or `chain` member raises
`KeyError`, aborting the whole resolution including all remaining peers. -/
theorem resolve_loop_skip_and_abort :
    (∀ (fetch : String → PeerResponse) node rest m nc,
      (fetch node).status_code ≠ 200 →
      resolve_loop fetch (node :: rest) m nc = resolve_loop fetch rest m nc) ∧
    (∀ (fetch : String → PeerResponse) node rest m nc,
      (fetch node).status_code = 200 → (fetch node).lengthField = none →
      resolve_loop fetch (node :: rest) m nc = .error "KeyError") ∧
    (∀ (fetch : String → PeerResponse) node rest m nc len,
      (fetch node).status_code = 200 → (fetch node).lengthField = some len →
      (fetch node).chainField = none →
      resolve_loop fetch (node :: rest) m nc = .error "KeyError") := by
  refine ⟨fun fetch node rest m nc h => ?_, fun fetch node rest m nc h200 hlen => ?_,
    fun fetch node rest m nc len h200 hlen hch => ?_⟩
  · simp [resolve_loop, h]
  · simp [resolve_loop, h200, hlen]
  · simp [resolve_loop, h200, hlen, hch]

/-- Witness for C2 (amended): a 404 peer is skipped; a 200 response without
`length`, or without `chain`, aborts with `KeyError`. -/
theorem resolve_loop_skip_and_abort_witness :
    ((notFoundFetch "x").status_code ≠ 200 ∧
      resolve_loop notFoundFetch ["x"] 1 none = resolve_loop notFoundFetch [] 1 none) ∧
    ((missingFieldFetch "a").status_code = 200 ∧
      (missingFieldFetch "a").lengthField = none ∧
      resolve_loop missingFieldFetch ["a"] 1 none = .error "KeyError") ∧
    ((noChainFetch "z").status_code = 200 ∧
      (noChainFetch "z").lengthField = some 5 ∧ (noChainFetch "z").chainField = none ∧
      resolve_loop noChainFetch ["z"] 1 none = .error "KeyError") := by
  refine ⟨⟨by decide, resolve_loop_skip_and_abort.1 notFoundFetch "x" [] 1 none (by decide)⟩,
    ⟨rfl, rfl, resolve_loop_skip_and_abort.2.1 missingFieldFetch "a" [] 1 none rfl rfl⟩,
    ⟨rfl, rfl, rfl, resolve_loop_skip_and_abort.2.2 noChainFetch "z" [] 1 none 5 rfl rfl rfl⟩⟩

/-- C1 counterexample: `resolve_conflicts` trusts the peer-reported `length`
member rather than the length of the reported chain.  A peer reporting
`length = 5` with a valid one-block chain replaces a two-block local chain:
`replaced = True` yet the adopted chain is strictly shorter than the
original local chain. -/
theorem resolve_conflicts_reported_length_cex :
    resolve_conflicts ⟨[genesisBlock, nextBlock], [], ["peer"]⟩ lieFetch =
      .ok (true, ⟨[genesisBlock], [], ["peer"]⟩) ∧
    ([genesisBlock] : List Block).length <
      ([genesisBlock, nextBlock] : List Block).length := by
  exact ⟨rfl, by decide⟩

/-- C1 (amended): replacement is governed by the peer-reported `length`.
Soundness: whenever `resolve_conflicts` returns `True`, the pending pool and
node set are untouched, the adopted chain passes `is_valid_chain`, and it was
reported by some peer with status 200 whose reported length strictly exceeds
the original local chain length and is maximal among all valid 200-responses
(so later candidates must be strictly longer, ties keep the first seen).
Completeness: on a network of well-formed responses containing some valid
chain with reported length above the local length, `resolve_conflicts`
returns `True`. -/
theorem resolve_conflicts_spec :
    (∀ (s : BlockchainState) (fetch : String → PeerResponse) (s' : BlockchainState),
      resolve_conflicts s fetch = .ok (true, s') →
      s'.current_transactions = s.current_transactions ∧ s'.nodes = s.nodes ∧
        is_valid_chain s'.chain = .ok true ∧
        ∃ n ∈ s.nodes, ∃ len, goodResp (fetch n) len s'.chain ∧
          (s.chain.length : Int) < len ∧
          ∀ n' ∈ s.nodes, ∀ len' c', goodResp (fetch n') len' c' →
            is_valid_chain c' = .ok true → len' ≤ len) ∧
    (∀ (s : BlockchainState) (fetch : String → PeerResponse),
      (∀ n ∈ s.nodes, wfResp (fetch n)) →
      (∃ n ∈ s.nodes, ∃ len c, goodResp (fetch n) len c ∧
        is_valid_chain c = .ok true ∧ (s.chain.length : Int) < len) →
      ∃ s', resolve_conflicts s fetch = .ok (true, s')) := by
  constructor
  · intro s fetch s' h
    rw [resolve_conflicts] at h
    rcases hr : resolve_loop fetch s.nodes ((s.chain.length : Int)) none with e | ⟨m', nc'⟩
    all_goals rw [hr] at h
    · cases h
    · rcases nc' with _ | c
      · simp at h
      · have h2 : (if c.isEmpty = true then Except.ok (false, s)
            else Except.ok (true, { s with chain := c })) =
            (Except.ok (true, s') : Except String (Bool × BlockchainState)) := h
        rcases hc : c.isEmpty with _ | _
        · rw [hc] at h2
          simp only [Bool.false_eq_true, if_false, Except.ok.injEq, Prod.mk.injEq,
            true_and] at h2
          subst h2
          rcases resolve_loop_cases hr with ⟨-, hnc⟩ | ⟨n, hn, c₂, hc₂, hg, hvc, hlt⟩
          · cases hnc
          · have hceq : c₂ = c := (Option.some.inj hc₂).symm
            subst hceq
            refine ⟨rfl, rfl, hvc, n, hn, m', hg, hlt, ?_⟩
            intro n' hn' len' c' hg' hv'
            exact resolve_loop_max hr n' hn' len' c' hg' hv'
        · rw [hc] at h2
          simp at h2
  · intro s fetch hwf hex
    obtain ⟨⟨m', nc'⟩, hr⟩ := @resolve_loop_total fetch s.nodes ((s.chain.length : Int)) none hwf
    obtain ⟨c, rfl⟩ := resolve_loop_progress hr hex
    rcases resolve_loop_cases hr with ⟨-, hnc⟩ | ⟨n, hn, c₂, hc₂, hg, hvc, hlt⟩
    · cases hnc
    · have hceq : c = c₂ := Option.some.inj hc₂
      subst hceq
      have hcne : c ≠ [] := ne_nil_of_is_valid_chain_ok hvc
      have hemp : c.isEmpty = false := by
        cases c with
        | nil => exact absurd rfl hcne
        | cons x xs => rfl
      refine ⟨{ s with chain := c }, ?_⟩
      rw [resolve_conflicts, hr]
      show (if c.isEmpty = true then Except.ok (false, s)
          else Except.ok (true, { s with chain := c })) =
        Except.ok (true, { s with chain := c })
      rw [hemp]
      simp

/-- Witness for C1 (amended) on the concrete lying-length network: soundness
and completeness instantiated at a two-block local chain and the peer
reporting a valid one-block chain as length 5. -/
theorem resolve_conflicts_spec_witness :
    (resolve_conflicts ⟨[genesisBlock, nextBlock], [], ["peer"]⟩ lieFetch =
      .ok (true, ⟨[genesisBlock], [], ["peer"]⟩)) ∧
    ((BlockchainState.mk [genesisBlock] [] ["peer"]).current_transactions =
        (BlockchainState.mk [genesisBlock, nextBlock] [] ["peer"]).current_transactions ∧
      (BlockchainState.mk [genesisBlock] [] ["peer"]).nodes =
        (BlockchainState.mk [genesisBlock, nextBlock] [] ["peer"]).nodes ∧
      is_valid_chain (BlockchainState.mk [genesisBlock] [] ["peer"]).chain = .ok true ∧
      ∃ n ∈ (BlockchainState.mk [genesisBlock, nextBlock] [] ["peer"]).nodes, ∃ len,
        goodResp (lieFetch n) len (BlockchainState.mk [genesisBlock] [] ["peer"]).chain ∧
        (((BlockchainState.mk [genesisBlock, nextBlock] [] ["peer"]).chain.length : Int) < len) ∧
        ∀ n' ∈ (BlockchainState.mk [genesisBlock, nextBlock] [] ["peer"]).nodes,
          ∀ len' c', goodResp (lieFetch n') len' c' →
            is_valid_chain c' = .ok true → len' ≤ len) ∧
    (∀ n ∈ (BlockchainState.mk [genesisBlock, nextBlock] [] ["peer"]).nodes,
      wfResp (lieFetch n)) ∧
    (∃ n ∈ (BlockchainState.mk [genesisBlock, nextBlock] [] ["peer"]).nodes,
      ∃ len c, goodResp (lieFetch n) len c ∧ is_valid_chain c = .ok true ∧
        (((BlockchainState.mk [genesisBlock, nextBlock] [] ["peer"]).chain.length : Int) < len)) ∧
    (∃ s', resolve_conflicts ⟨[genesisBlock, nextBlock], [], ["peer"]⟩ lieFetch =
      .ok (true, s')) := by
  have h0 : resolve_conflicts ⟨[genesisBlock, nextBlock], [], ["peer"]⟩ lieFetch =
      .ok (true, ⟨[genesisBlock], [], ["peer"]⟩) := rfl
  have hwf : ∀ n ∈ (BlockchainState.mk [genesisBlock, nextBlock] [] ["peer"]).nodes,
      wfResp (lieFetch n) := by
    intro n _ _
    exact ⟨5, [genesisBlock], rfl, rfl, by decide⟩
  have hex : ∃ n ∈ (BlockchainState.mk [genesisBlock, nextBlock] [] ["peer"]).nodes,
      ∃ len c, goodResp (lieFetch n) len c ∧ is_valid_chain c = .ok true ∧
        (((BlockchainState.mk [genesisBlock, nextBlock] [] ["peer"]).chain.length : Int) < len) := by
    refine ⟨"peer", by decide, 5, [genesisBlock], ⟨rfl, rfl, rfl⟩, rfl, by decide⟩
  exact ⟨h0, resolve_conflicts_spec.1 _ lieFetch _ h0, hwf, hex,
    resolve_conflicts_spec.2 _ lieFetch hwf hex⟩

/-! ### Chain validation (claim C4) -/

/-- The validation walk accepts exactly the chains whose consecutive blocks
are pairwise linked. -/
lemma is_valid_chain_loop_iff (b : Block) (l : List Block) :
    is_valid_chain_loop b l = true ↔ List.Chain' linkOk (b :: l) := by
  induction l generalizing b with
  | nil => simp [is_valid_chain_loop]
  | cons c l ih =>
    rw [is_valid_chain_loop]
    rcases hbeq : beqEValStr c.previous_hash (hash b) with _ | _
    · simp [hbeq, List.chain'_cons, linkOk]
    · rcases hpow : is_valid_proof b.proof c.proof with _ | _
      · simp [hbeq, hpow, List.chain'_cons, linkOk]
      · simp [hbeq, hpow, List.chain'_cons, linkOk, ih]

/-- `is_valid_chain` on a non-empty chain decides the pairwise link
relation. -/
lemma is_valid_chain_iff {c : List Block} (h : c ≠ []) :
    is_valid_chain c = .ok true ↔ List.Chain' linkOk c := by
  cases c with
  | nil => exact absurd rfl h
  | cons b l => simp [is_valid_chain, is_valid_chain_loop_iff]

/-- The dictionary-against-string comparison succeeds exactly on the matching
string value. -/
lemma beqEValStr_eq_true_iff {v : EVal} {s : String} :
    beqEValStr v s = true ↔ v = .str s := by
  cases v <;> simp [beqEValStr]

/-- Changing a `previous_hash` value away from the matching string makes the
comparison fail. -/
lemma beqEValStr_false_of_ne {v w : EVal} {s : String}
    (hw : beqEValStr w s = true) (hne : v ≠ w) : beqEValStr v s = false := by
  rw [beqEValStr_eq_true_iff] at hw
  subst hw
  rcases v with n | t | l
  · rfl
  · simp only [beqEValStr, beq_eq_false_iff_ne]
    intro heq
    subst heq
    exact hne rfl
  · rfl

/-- Helper for the C4 witness and counterexample: the concrete two-block
chain is valid (its hash link and proof of work check out). -/
lemma valid_chain_pair : is_valid_chain [genesisBlock, nextBlock] = .ok true := by rfl

/-- Helper for the C4 counterexample: after corrupting the second block's
proof to the other proof-of-work solution `88145`, the chain still validates,
because the hash link inspects only the predecessor block and the corrupted
proof happens to satisfy the difficulty predicate as well. -/
lemma valid_chain_pair_alt : is_valid_chain [genesisBlock, nextBlockAltProof] = .ok true := by
  rfl

/-- C4 counterexample: (i) on the empty chain `is_valid_chain` raises
`IndexError` instead of returning true vacuously, and (ii) corrupting the
second block's proof in an otherwise-valid two-block chain (to the other
proof-of-work solution) leaves `is_valid_chain` returning true, so a
single-proof corruption does not always invalidate the chain. -/
theorem is_valid_chain_cex :
    is_valid_chain ([] : List Block) = .error "IndexError" ∧
    is_valid_chain [genesisBlock, nextBlock] = .ok true ∧
    nextBlockAltProof = { nextBlock with proof := 88145 } ∧
    nextBlock.proof ≠ nextBlockAltProof.proof ∧
    is_valid_chain [genesisBlock, nextBlockAltProof] = .ok true :=
  ⟨rfl, valid_chain_pair, rfl, by decide, valid_chain_pair_alt⟩

/-- C4 (amended): on non-empty chains, `is_valid_chain` returns true exactly
when every adjacent pair `(prev, cur)` satisfies
`cur.previous_hash == hash prev` and `is_valid_proof prev.proof cur.proof`; a
single-block chain is trivially valid; and corrupting the `previous_hash` of
any block at position ≥ 1 of a valid chain of length ≥ 2 makes
`is_valid_chain` return false.  (On the empty chain the code raises
`IndexError`, and corrupting a proof or the first block's `previous_hash`
need not invalidate the chain.) -/
theorem is_valid_chain_spec :
    (∀ (b : Block) (l : List Block),
      is_valid_chain (b :: l) = .ok true ↔ List.Chain' linkOk (b :: l)) ∧
    (∀ b : Block, is_valid_chain [b] = .ok true) ∧
    (∀ (pre : List Block) (prev cur : Block) (post : List Block) (v : EVal),
      is_valid_chain (pre ++ prev :: cur :: post) = .ok true →
      v ≠ cur.previous_hash →
      is_valid_chain (pre ++ prev :: { cur with previous_hash := v } :: post) =
        .ok false) := by
  refine ⟨fun b l => is_valid_chain_iff (by simp), fun b => rfl,
    fun pre prev cur post v hvalid hne => ?_⟩
  have hne1 : (pre ++ prev :: cur :: post) ≠ [] := by simp
  have hch : List.Chain' linkOk (pre ++ prev :: cur :: post) :=
    (is_valid_chain_iff hne1).mp hvalid
  have hlk : linkOk prev cur := by
    have h2 := (List.chain'_append.mp hch).2.1
    exact (List.chain'_cons.mp h2).1
  have hbeqf : beqEValStr v (hash prev) = false := beqEValStr_false_of_ne hlk.1 hne
  have hnotch : ¬ List.Chain' linkOk
      (pre ++ prev :: { cur with previous_hash := v } :: post) := by
    intro hcon
    have h2 := (List.chain'_append.mp hcon).2.1
    have hlk' := (List.chain'_cons.mp h2).1
    have hbad : beqEValStr v (hash prev) = true := hlk'.1
    rw [hbeqf] at hbad
    cases hbad
  have hne2 : (pre ++ prev :: { cur with previous_hash := v } :: post) ≠ [] := by simp
  obtain ⟨b, hb⟩ := is_valid_chain_ok_of_ne_nil hne2
  cases b with
  | true => exact absurd ((is_valid_chain_iff hne2).mp hb) hnotch
  | false => exact hb

/-- Witness for C4 (amended): corrupting the second block's `previous_hash`
of the concrete valid two-block chain makes validation return false. -/
theorem is_valid_chain_spec_witness :
    is_valid_chain ([] ++ genesisBlock :: nextBlock :: []) = .ok true ∧
    (EVal.str "x" ≠ nextBlock.previous_hash) ∧
    is_valid_chain
      ([] ++ genesisBlock :: { nextBlock with previous_hash := EVal.str "x" } :: []) =
      .ok false := by
  have h1 : is_valid_chain ([] ++ genesisBlock :: nextBlock :: []) = .ok true :=
    valid_chain_pair
  have h2 : (EVal.str "x" : EVal) ≠ nextBlock.previous_hash := by decide
  exact ⟨h1, h2, is_valid_chain_spec.2.2 [] genesisBlock nextBlock [] (.str "x") h1 h2⟩

/-! ### Hash canonicalization (claim C8) -/

/-- Sorting by key is insensitive to the initial entry order as long as the
keys are pairwise distinct (as they are in any Python dictionary). -/
lemma sortEntries_eq_of_perm {l₁ l₂ : List (String × EVal)} (hp : l₁.Perm l₂)
    (hnd : (l₁.map Prod.fst).Nodup) : sortEntries l₁ = sortEntries l₂ := by
  haveI : IsAntisymm (String × EVal) (fun a b => a.1 < b.1) :=
    ⟨fun a b h h' => absurd h' (lt_asymm h)⟩
  have hperm : (sortEntries l₁).Perm (sortEntries l₂) :=
    (List.perm_insertionSort entryLe l₁).trans
      (hp.trans (List.perm_insertionSort entryLe l₂).symm)
  have hnd₁ : ((sortEntries l₁).map Prod.fst).Nodup :=
    (((List.perm_insertionSort entryLe l₁).map Prod.fst).nodup_iff).mpr hnd
  have hnd₂ : ((sortEntries l₂).map Prod.fst).Nodup :=
    (((List.perm_insertionSort entryLe l₂).map Prod.fst).nodup_iff).mpr
      ((hp.map Prod.fst).nodup_iff.mp hnd)
  have hstrict : ∀ {l : List (String × EVal)}, List.Sorted entryLe l →
      ((l.map Prod.fst).Nodup) →
      List.Sorted (fun a b : String × EVal => a.1 < b.1) l := by
    intro l hs hn
    have hne : List.Pairwise (fun a b : String × EVal => a.1 ≠ b.1) l :=
      List.pairwise_map.mp hn
    exact (hs.and hne).imp fun h => lt_of_le_of_ne h.1 h.2
  exact List.eq_of_perm_of_sorted hperm
    (hstrict (List.sorted_insertionSort entryLe l₁) hnd₁)
    (hstrict (List.sorted_insertionSort entryLe l₂) hnd₂)

/-- C8: `hash` is a pure function of the block's field values, and the
canonical serialization (`sort_keys=True`) makes the digest of a dictionary
independent of the order in which its (distinct-keyed) entries were inserted:
permuting the entries never changes the digest. -/
theorem hash_deterministic :
    (∀ b : Block, hash b = hash b) ∧
    (∀ l₁ l₂ : List (String × EVal), l₁.Perm l₂ → (l₁.map Prod.fst).Nodup →
      hashEntries l₁ = hashEntries l₂) ∧
    (∀ b : Block, hash b = hashEntries (blockEntries b)) := by
  refine ⟨fun b => rfl, fun l₁ l₂ hp hnd => ?_, fun b => rfl⟩
  unfold hashEntries dumpEntries
  rw [sortEntries_eq_of_perm hp hnd]

/-- Witness for C8: two insertion orders of the same two-entry dictionary
hash identically. -/
theorem hash_deterministic_witness :
    ([("b", EVal.int 1), ("a", EVal.int 2)].Perm [("a", EVal.int 2), ("b", EVal.int 1)]) ∧
    (([("b", EVal.int 1), ("a", EVal.int 2)].map Prod.fst).Nodup) ∧
    hashEntries [("b", EVal.int 1), ("a", EVal.int 2)] =
      hashEntries [("a", EVal.int 2), ("b", EVal.int 1)] := by
  have hp : [("b", EVal.int 1), ("a", EVal.int 2)].Perm
      [("a", EVal.int 2), ("b", EVal.int 1)] :=
    List.Perm.swap ("a", EVal.int 2) ("b", EVal.int 1) []
  have hnd : (([("b", EVal.int 1), ("a", EVal.int 2)]).map Prod.fst).Nodup := by decide
  exact ⟨hp, hnd, hash_deterministic.2.1 _ _ hp hnd⟩

/-! ### Genesis and non-emptiness (claim C9) -/

/-- Whenever `new_block` succeeds it appends exactly the returned block. -/
lemma new_block_chain_eq {s : BlockchainState} {t : Nat} {p : Int}
    {ph : Option EVal} {b : Block} {s' : BlockchainState}
    (h : new_block s t p ph = .ok (b, s')) : s'.chain = s.chain ++ [b] := by
  rcases ph with _ | v
  · rcases hlast : s.chain.getLast? with _ | lb
    · simp [new_block, hlast] at h
    · simp only [new_block, hlast, Except.ok.injEq, Prod.mk.injEq] at h
      obtain ⟨rfl, rfl⟩ := h
      rfl
  · rcases htr : truthy v with _ | _
    · rcases hlast : s.chain.getLast? with _ | lb
      · simp [new_block, htr, hlast] at h
      · simp only [new_block, htr, hlast, Bool.false_eq_true, if_false,
          Except.ok.injEq, Prod.mk.injEq] at h
        obtain ⟨rfl, rfl⟩ := h
        rfl
    · simp only [new_block, htr, if_true, Except.ok.injEq, Prod.mk.injEq] at h
      obtain ⟨rfl, rfl⟩ := h
      rfl

/-- C9: a freshly constructed chain consists of exactly the genesis block
(proof 100, sentinel `previous_hash = 1`), that single-block chain passes
`is_valid_chain`, and every operation — block creation, transaction
submission, node registration and consensus resolution — keeps the chain
non-empty. -/
theorem genesis_and_chain_nonempty :
    (∀ t : Nat, initState t =
      .ok ⟨[{ index := 1, timestamp := t, transactions := [], proof := 100,
              previous_hash := .int 1 }], [], []⟩) ∧
    (∀ (t : Nat) (s : BlockchainState), initState t = .ok s →
      s.chain.length = 1 ∧ is_valid_chain s.chain = .ok true ∧
        ∃ g, s.chain = [g] ∧ g.proof = 100 ∧ g.previous_hash = .int 1) ∧
    (∀ (s : BlockchainState) (t : Nat) (p : Int) (ph : Option EVal)
      (b : Block) (s' : BlockchainState),
      new_block s t p ph = .ok (b, s') → s'.chain ≠ []) ∧
    (∀ (s : BlockchainState) (sender recipient : String) (amount : Int)
      (r : Int) (s' : BlockchainState),
      new_transaction s sender recipient amount = .ok (r, s') → s'.chain = s.chain) ∧
    (∀ (s : BlockchainState) (n : String), (register_node s n).chain = s.chain) ∧
    (∀ (s : BlockchainState) (fetch : String → PeerResponse) (r : Bool)
      (s' : BlockchainState), s.chain ≠ [] →
      resolve_conflicts s fetch = .ok (r, s') → s'.chain ≠ []) := by
  have hinit : ∀ t : Nat, initState t =
      .ok ⟨[{ index := 1, timestamp := t, transactions := [], proof := 100,
              previous_hash := .int 1 }], [], []⟩ := fun t => rfl
  refine ⟨hinit, fun t s hs => ?_, fun s t p ph b s' h => ?_,
    fun s sender recipient amount r s' h => ?_, fun s n => ?_,
    fun s fetch r s' hne h => ?_⟩
  · rw [hinit t] at hs
    have hs' := Except.ok.inj hs
    subst hs'
    exact ⟨rfl, rfl, _, rfl, rfl, rfl⟩
  · rw [new_block_chain_eq h]
    simp
  · simp only [new_transaction] at h
    rcases hlast : s.chain.getLast? with _ | lb
    · simp [hlast] at h
    · rw [hlast] at h
      simp only [Except.ok.injEq, Prod.mk.injEq] at h
      obtain ⟨-, rfl⟩ := h
      rfl
  · rw [register_node]
    split
    · rfl
    · rfl
  · rw [resolve_conflicts] at h
    rcases hr : resolve_loop fetch s.nodes ((s.chain.length : Int)) none with e | ⟨m', nc'⟩
    all_goals rw [hr] at h
    · cases h
    · rcases nc' with _ | c
      · have h2 := Except.ok.inj h
        have hs' : s' = s := (congrArg Prod.snd h2).symm
        rw [hs']
        exact hne
      · have h2 : (if c.isEmpty = true then Except.ok (false, s)
            else Except.ok (true, { s with chain := c })) =
            (Except.ok (r, s') : Except String (Bool × BlockchainState)) := h
        rcases hc : c.isEmpty with _ | _
        · rw [hc] at h2
          simp only [Bool.false_eq_true, if_false, Except.ok.injEq, Prod.mk.injEq] at h2
          obtain ⟨-, rfl⟩ := h2
          intro hnil
          have hcnil : c = [] := hnil
          rw [hcnil] at hc
          simp at hc
        · rw [hc] at h2
          simp only [if_true, Except.ok.injEq, Prod.mk.injEq] at h2
          obtain ⟨-, rfl⟩ := h2
          exact hne

/-- Witness for C9: the fresh state at timestamp 1234 is the one-block
genesis chain, it is non-empty, and resolution over an empty peer set keeps
it non-empty. -/
theorem genesis_and_chain_nonempty_witness :
    initState 1234 = .ok ⟨[genesisBlock], [], []⟩ ∧
    ((BlockchainState.mk [genesisBlock] [] []).chain.length = 1 ∧
      is_valid_chain (BlockchainState.mk [genesisBlock] [] []).chain = .ok true ∧
      ∃ g, (BlockchainState.mk [genesisBlock] [] []).chain = [g] ∧
        g.proof = 100 ∧ g.previous_hash = .int 1) ∧
    ((BlockchainState.mk [genesisBlock] [] []).chain ≠ []) ∧
    resolve_conflicts ⟨[genesisBlock], [], []⟩ notFoundFetch =
      .ok (false, ⟨[genesisBlock], [], []⟩) ∧
    (BlockchainState.mk [genesisBlock] [] []).chain ≠ [] := by
  refine ⟨genesis_and_chain_nonempty.1 1234,
    genesis_and_chain_nonempty.2.1 1234 ⟨[genesisBlock], [], []⟩ rfl,
    by simp, rfl, ?_⟩
  exact genesis_and_chain_nonempty.2.2.2.2.2 ⟨[genesisBlock], [], []⟩ notFoundFetch
    false ⟨[genesisBlock], [], []⟩ (by simp) rfl
